import Mathlib

/-!
Shallow embedding of `src/analyzer/anomaly_detector.py`.

The detector consumes a read-only neighbor-graph index (count, per-item
k-nearest-neighbor queries with distances, embedding matrix) and produces a
ranked list of `AnomalyScore` records.  Python floats are modelled by the type
`F` below: an exact rational, `+inf`, `-inf`, or `NaN`, with IEEE-754-style
arithmetic and comparisons (rounding of finite results is not modelled; all
finite arithmetic is exact).  `float('inf')` genuinely occurs in the source
(zero-neighbor items), and `inf/inf = NaN` genuinely occurs in `normalize`,
so those values are part of the model.
-/

namespace AnomalyDetection

/-- Model of the Python float values arising in the pipeline: NaN, +infinity,
-infinity, or a finite value (an exact rational). -/
inductive F where
  | nan : F
  | pinf : F
  | ninf : F
  | q : ℚ → F
deriving DecidableEq

/-- IEEE-style negation. -/
def F.neg : F → F
  | F.nan => F.nan
  | F.pinf => F.ninf
  | F.ninf => F.pinf
  | F.q a => F.q (-a)

/-- IEEE-style addition: NaN propagates, `+inf + -inf = NaN`. -/
def F.add : F → F → F
  | F.nan, _ => F.nan
  | _, F.nan => F.nan
  | F.pinf, F.ninf => F.nan
  | F.ninf, F.pinf => F.nan
  | F.pinf, _ => F.pinf
  | _, F.pinf => F.pinf
  | F.ninf, _ => F.ninf
  | _, F.ninf => F.ninf
  | F.q a, F.q b => F.q (a + b)

/-- IEEE-style subtraction, `a - b = a + (-b)`. -/
def F.sub (a b : F) : F := F.add a (F.neg b)

/-- IEEE-style multiplication: NaN propagates, `inf * 0 = NaN`. -/
def F.mul : F → F → F
  | F.nan, _ => F.nan
  | _, F.nan => F.nan
  | F.pinf, F.pinf => F.pinf
  | F.pinf, F.ninf => F.ninf
  | F.ninf, F.pinf => F.ninf
  | F.ninf, F.ninf => F.pinf
  | F.pinf, F.q b => if b = 0 then F.nan else if 0 < b then F.pinf else F.ninf
  | F.q a, F.pinf => if a = 0 then F.nan else if 0 < a then F.pinf else F.ninf
  | F.ninf, F.q b => if b = 0 then F.nan else if 0 < b then F.ninf else F.pinf
  | F.q a, F.ninf => if a = 0 then F.nan else if 0 < a then F.ninf else F.pinf
  | F.q a, F.q b => F.q (a * b)

/-- IEEE-style division: NaN propagates, `inf/inf = NaN`, `finite/inf = 0`,
`0/0 = NaN`, nonzero/0 = signed infinity.  (Signed zero is not modelled:
`ℚ` has a single zero, so `finite/inf` is `+0` regardless of signs; the
pipeline never divides by a negative infinite quantity.) -/
def F.div : F → F → F
  | F.nan, _ => F.nan
  | _, F.nan => F.nan
  | F.pinf, F.pinf => F.nan
  | F.pinf, F.ninf => F.nan
  | F.ninf, F.pinf => F.nan
  | F.ninf, F.ninf => F.nan
  | F.pinf, F.q b => if 0 ≤ b then F.pinf else F.ninf
  | F.ninf, F.q b => if 0 ≤ b then F.ninf else F.pinf
  | F.q _, F.pinf => F.q 0
  | F.q _, F.ninf => F.q 0
  | F.q a, F.q b =>
      if b = 0 then (if a = 0 then F.nan else if 0 < a then F.pinf else F.ninf)
      else F.q (a / b)

/-- IEEE-style `≤`: any comparison with NaN is false. -/
def F.ble : F → F → Bool
  | F.nan, _ => false
  | _, F.nan => false
  | F.ninf, _ => true
  | _, F.ninf => false
  | _, F.pinf => true
  | F.pinf, _ => false
  | F.q a, F.q b => decide (a ≤ b)

/-- IEEE-style `<`: any comparison with NaN is false. -/
def F.blt : F → F → Bool
  | F.nan, _ => false
  | _, F.nan => false
  | F.ninf, F.ninf => false
  | F.ninf, _ => true
  | _, F.ninf => false
  | F.pinf, _ => false
  | F.q _, F.pinf => true
  | F.q a, F.q b => decide (a < b)

/-- IEEE-style `==`: NaN is not equal to anything, including itself. -/
def F.beq : F → F → Bool
  | F.nan, _ => false
  | _, F.nan => false
  | F.pinf, F.pinf => true
  | F.ninf, F.ninf => true
  | F.q a, F.q b => decide (a = b)
  | _, _ => false

/-- Binary maximum as used by `numpy.ndarray.max` reduction: NaN propagates. -/
def F.fmax : F → F → F
  | F.nan, _ => F.nan
  | _, F.nan => F.nan
  | a, b => if F.ble a b then b else a

/-- Binary minimum as used by `numpy.ndarray.min` reduction: NaN propagates. -/
def F.fmin : F → F → F
  | F.nan, _ => F.nan
  | _, F.nan => F.nan
  | a, b => if F.ble a b then a else b

/-- Model of the external neighbor-graph index contract (spec section 6).
`count` is the number of indexed items.  `getNeighbors i k` models
`index.get_neighbors(i, k)`: an ordered list of (neighbor id, distance)
pairs; distances are modelled as exact rationals.  The embedding matrix is
consumed only by the external sklearn `LocalOutlierFactor` estimator; on a
conforming index its row count equals `count` (spec sections 6 and 7), and the
estimator's deterministic per-item output (already negated to the `>1 =
outlier` convention of `compute_lof`) is modelled by the oracle `lofOracle`. -/
structure HNSWIndex where
  count : Nat
  getNeighbors : Nat → Nat → List (Nat × ℚ)
  lofOracle : Nat → ℚ

/-- Conformance of an index to the contract in spec section 6: each query for
an item id in range returns at most `k` neighbors, every returned neighbor id
is in `[0, count)`, no id is repeated within one query's result, and results
are ordered by ascending distance. -/
def Conforming (idx : HNSWIndex) (k : Nat) : Prop :=
  ∀ i < idx.count,
    (idx.getNeighbors i k).length ≤ k ∧
    (∀ p ∈ idx.getNeighbors i k, p.1 < idx.count) ∧
    ((idx.getNeighbors i k).map Prod.fst).Nodup ∧
    ((idx.getNeighbors i k).map Prod.snd).Pairwise (· ≤ ·)

instance (idx : HNSWIndex) (k : Nat) : Decidable (Conforming idx k) :=
  inferInstanceAs (Decidable (∀ i < idx.count,
    (idx.getNeighbors i k).length ≤ k ∧
    (∀ p ∈ idx.getNeighbors i k, p.1 < idx.count) ∧
    ((idx.getNeighbors i k).map Prod.fst).Nodup ∧
    ((idx.getNeighbors i k).map Prod.snd).Pairwise (· ≤ ·)))

/-- Either every item in range has at least one neighbor, or no item has any:
exactly the indexes on which `normalize` never mixes finite values with
`float('inf')` (and so never produces NaN). -/
def NoMixedInf (idx : HNSWIndex) (k : Nat) : Prop :=
  (∀ i < idx.count, idx.getNeighbors i k ≠ []) ∨
  (∀ i < idx.count, idx.getNeighbors i k = [])

instance (idx : HNSWIndex) (k : Nat) : Decidable (NoMixedInf idx k) :=
  inferInstanceAs (Decidable ((∀ i < idx.count, idx.getNeighbors i k ≠ []) ∨
    (∀ i < idx.count, idx.getNeighbors i k = [])))

/-- Embedding of the dataclass `AnomalyScore`.  `lof_score` is kept as a plain
rational: it comes either from the literal `1.0` default or from the sklearn
estimator, which returns finite values. -/
structure AnomalyScore where
  item_id : Nat
  knn_distance : F
  lof_score : ℚ
  reverse_knn_count : Nat
  isolation_score : F
  neighbors : List Nat
  rank : Nat
deriving DecidableEq

/-- The body of `compute_knn_distances`' loop for one item: the mean
neighbor distance (`numpy.mean`, modelled as the exact rational sum/length)
with the neighbor id list, or `(inf, [])` when the query returned nothing. -/
def knnEntry (idx : HNSWIndex) (k item_id : Nat) : F × List Nat :=
  let neighbors := idx.getNeighbors item_id k
  if neighbors.isEmpty then (F.pinf, [])
  else (F.q ((neighbors.map Prod.snd).sum / neighbors.length),
        neighbors.map Prod.fst)

/-- Embedding of `AnomalyDetector.compute_knn_distances` (the detector's `k`
is passed explicitly).  The result dict has keys `0..count-1` inserted in
ascending order, so it is modelled as a list whose position is the item id. -/
def compute_knn_distances (idx : HNSWIndex) (k : Nat) : List (F × List Nat) :=
  (List.range idx.count).map (knnEntry idx k)

/-- One `reverse_counts[x] += 1` step on a `collections.Counter`, modelled as
an insertion-ordered association list (CPython dicts preserve insertion order;
updating an existing key keeps its position, a new key is appended). -/
def updateCounter (m : List (Nat × Nat)) (x : Nat) : List (Nat × Nat) :=
  if m.any (fun p => p.1 == x) then
    m.map (fun p => if p.1 == x then (p.1, p.2 + 1) else p)
  else m ++ [(x, 1)]

/-- Embedding of `AnomalyDetector.compute_reverse_knn`: one increment per
returned neighbor over all queries, then every item id in `[0,count)` not yet
present is recorded with count 0.  The insertion order of the Python
`Counter` is preserved because `compute_isolation_score` later consumes
`reverse_knn.values()` in that order. -/
def compute_reverse_knn (idx : HNSWIndex) (k : Nat) : List (Nat × Nat) :=
  let reverse_counts := (List.range idx.count).foldl
    (fun m item_id =>
      (idx.getNeighbors item_id k).foldl (fun m' p => updateCounter m' p.1) m)
    []
  (List.range idx.count).foldl
    (fun m item_id =>
      if m.any (fun p => p.1 == item_id) then m else m ++ [(item_id, 0)])
    reverse_counts

/-- Embedding of `AnomalyDetector.compute_lof`.  `len(embeddings)` equals
`idx.count` by the index contract (spec sections 6 and 7).  When there is
enough data the scores are produced by the external sklearn estimator,
modelled by the index's `lofOracle`; the `contamination` argument only tunes
that external estimator, so it does not appear in the model. -/
def compute_lof (idx : HNSWIndex) (k : Nat) : List ℚ :=
  if idx.count < k + 1 then (List.range idx.count).map (fun _ => (1 : ℚ))
  else (List.range idx.count).map idx.lofOracle

/-- Embedding of the inner function `normalize` of
`compute_isolation_score` (min-max rescaling with an inversion flag; a
constant array yields 0.5 everywhere).  The result dict is keyed by position
in the input array, so it is modelled as a list.  `numpy` raises on an empty
array; `normalize` is only ever applied to arrays of length `count ≥ 1`
(`analyze` returns early when `count() == 0`), and the `[]` case here is an
arbitrary total completion. -/
def normalize (values : List F) (inverse : Bool) : List F :=
  match values with
  | [] => []
  | v :: vs =>
    let mx := vs.foldl F.fmax v
    let mn := vs.foldl F.fmin v
    if F.beq mx mn then (v :: vs).map (fun _ => F.q (1/2))
    else (v :: vs).map (fun x =>
      let normalized := F.div (F.sub x mn) (F.sub mx mn)
      if inverse then F.sub (F.q 1) normalized else normalized)

/-- Embedding of `AnomalyDetector.compute_isolation_score`.  The three dicts
are consumed through `.values()` in insertion order; `knn_norm[item_id]`,
`lof_norm[item_id]` and `rknn_norm[item_id]` index the `normalize` outputs,
whose keys are positions in the corresponding values array (for the
reverse-kNN dict that position is in general NOT the item id).  The `getD`
defaults are unreachable: every normalized list has length at least the
number of items, matching the absence of `KeyError` in the source. -/
def compute_isolation_score (knn_distances : List (F × List Nat))
    (lof_scores : List ℚ) (reverse_knn : List (Nat × Nat))
    (weights : ℚ × ℚ × ℚ) : List F :=
  let knn_values := knn_distances.map Prod.fst
  let lof_values := lof_scores.map F.q
  let rknn_values := reverse_knn.map (fun p => F.q (p.2 : ℚ))
  let knn_norm := normalize knn_values false
  let lof_norm := normalize lof_values false
  let rknn_norm := normalize rknn_values true
  (List.range knn_distances.length).map fun item_id =>
    F.add (F.add (F.mul (F.q weights.1) (knn_norm.getD item_id (F.q 0)))
                 (F.mul (F.q weights.2.1) (lof_norm.getD item_id (F.q 0))))
          (F.mul (F.q weights.2.2) (rknn_norm.getD item_id (F.q 0)))

/-- The default weights `(0.4, 0.4, 0.2)`. -/
def defaultWeights : ℚ × ℚ × ℚ := (2/5, 2/5, 1/5)

/-- Stable insertion of `a` into `l` with respect to the boolean comparator
`le`: `a` is placed before the first element `b` with `le a b`. -/
def insertBy (le : α → α → Bool) (a : α) : List α → List α
  | [] => [a]
  | b :: l => if le a b then a :: b :: l else b :: insertBy le a l

/-- Stable sort with respect to the boolean comparator `le`.  Python's
`list.sort` is stable; for a total preorder every stable sort produces the
same output, so this insertion sort is a faithful model of the source's
`scores.sort(key=lambda s: s.isolation_score, reverse=True)` (via the
comparator that puts `a` before `b` when `b`'s key is at most `a`'s)
whenever the keys are totally ordered.  When NaN keys make the comparisons
non-total the concrete order of a comparison-based sort is
implementation-defined; this model still returns a permutation, as CPython
does. -/
def sortBy (le : α → α → Bool) : List α → List α
  | [] => []
  | a :: l => insertBy le a (sortBy le l)

/-- Embedding of `for rank, score in enumerate(scores, 1): score.rank = rank`:
the record at position `i` (0-based) of the sorted list receives rank
`start + i`. -/
def assignRanks (start : Nat) : List AnomalyScore → List AnomalyScore
  | [] => []
  | s :: l => { s with rank := start } :: assignRanks (start + 1) l

/-- The body of `analyze`'s score-building loop for one item id.  All four
metric dicts have keys `0..count-1` (positions for the list-modelled ones,
lookup keys for the reverse-kNN one), so the `getD` defaults are
unreachable, matching the absence of `KeyError` in the source. -/
def scoreEntry (idx : HNSWIndex) (k : Nat) (weights : ℚ × ℚ × ℚ)
    (item_id : Nat) : AnomalyScore :=
  { item_id := item_id
    knn_distance := ((compute_knn_distances idx k).getD item_id
      (F.pinf, [])).1
    lof_score := (compute_lof idx k).getD item_id 1
    reverse_knn_count := ((compute_reverse_knn idx k).lookup item_id).getD 0
    isolation_score := (compute_isolation_score (compute_knn_distances idx k)
      (compute_lof idx k) (compute_reverse_knn idx k) weights).getD item_id
      (F.q 0)
    neighbors := ((compute_knn_distances idx k).getD item_id (F.pinf, [])).2
    rank := 0 }

/-- The `scores` list built by `analyze`'s `for item_id in range(...)` loop:
one `AnomalyScore` per item id in ascending id order, with `rank` still at
its default 0. -/
def rawScores (idx : HNSWIndex) (k : Nat) (weights : ℚ × ℚ × ℚ) :
    List AnomalyScore :=
  (List.range idx.count).map (scoreEntry idx k weights)

/-- The comparator realised by
`scores.sort(key=lambda s: s.isolation_score, reverse=True)`:
`a` may stay before `b` exactly when `b`'s key is at most `a`'s. -/
def scoreLe (a b : AnomalyScore) : Bool :=
  F.ble b.isolation_score a.isolation_score

/-- Embedding of `AnomalyDetector.analyze` (the detector's `k` and the
`weights` argument are explicit; `lof_contamination` only tunes the external
estimator and does not appear in the model). -/
def analyze (idx : HNSWIndex) (k : Nat) (weights : ℚ × ℚ × ℚ) :
    List AnomalyScore :=
  if idx.count = 0 then []
  else assignRanks 1 (sortBy scoreLe (rawScores idx k weights))

/-- Embedding of the Python slice `l[:n]` for an arbitrary integer `n`:
non-negative `n` takes the first `n` elements; negative `n` drops the last
`-n` elements. -/
def pySlice (l : List α) (n : Int) : List α :=
  if 0 ≤ n then l.take n.toNat else l.take (l.length - (-n).toNat)

/-- Embedding of `AnomalyDetector.get_top_anomalys`: run the full analysis
with the default weights and return `all_scores[:n]`. -/
def get_top_anomalys (idx : HNSWIndex) (k : Nat) (n : Int) :
    List AnomalyScore :=
  pySlice (analyze idx k defaultWeights) n

/-- Floor of a rational number (kernel-friendly: avoids the `FloorRing`
instance). -/
def qfloor (r : ℚ) : ℤ := Int.fdiv r.num (r.den : ℤ)

/-- Round a rational to the nearest integer, ties to even — the rounding
Python's fixed-point float formatting performs on the (exactly represented)
value. -/
def roundHalfEven (r : ℚ) : ℤ :=
  let f := qfloor r
  let frac := r - (f : ℚ)
  if frac < 1/2 then f
  else if 1/2 < frac then f + 1
  else if f % 2 = 0 then f else f + 1

/-- Decimal digits of `n` left-padded with zeros to width `w`. -/
def zeroPad (w : Nat) (n : Nat) : String :=
  let s := toString n
  String.mk (List.replicate (w - s.length) '0') ++ s

/-- Model of Python's fixed-point format `f"{r:.prec f}"` for a finite
value: round half-even at `prec` decimal places.  (Negative zero is not
modelled; the pipeline only ever formats values above its positive
thresholds.) -/
def fmtQFixed (prec : Nat) (r : ℚ) : String :=
  let n := roundHalfEven (r * (10 ^ prec : ℚ))
  let sign := if n < 0 then "-" else ""
  let m := n.natAbs
  sign ++ toString (m / 10 ^ prec) ++ "." ++ zeroPad prec (m % 10 ^ prec)

/-- Model of Python's `f"{x:.prec f}"` on a float, including the special
values. -/
def fmtF (prec : Nat) : F → String
  | F.nan => "nan"
  | F.pinf => "inf"
  | F.ninf => "-inf"
  | F.q r => fmtQFixed prec r

/-- Embedding of `AnomalyDetector.explain_anomaly`: three threshold rules in
a fixed order accumulate reason strings; a generic fallback fires when no
rule does; the reasons are joined with the literal separator.  The float
literals `0.5`, `0.3`, `1.5`, `1.2` of the source are modelled by the exact
rationals they denote. -/
def explain_anomaly (score : AnomalyScore) : String :=
  let reasons : List String := []
  let reasons :=
    if F.blt (F.q (1/2)) score.knn_distance then
      reasons ++ ["High distance to neighbors (" ++
        fmtF 3 score.knn_distance ++ ") - isolated in embedding space"]
    else if F.blt (F.q (3/10)) score.knn_distance then
      reasons ++ ["Moderate distance to neighbors (" ++
        fmtF 3 score.knn_distance ++ ")"]
    else reasons
  let reasons :=
    if (3/2 : ℚ) < score.lof_score then
      reasons ++ ["High LOF score (" ++ fmtQFixed 2 score.lof_score ++
        ") - in a sparse region compared to neighbors"]
    else if (6/5 : ℚ) < score.lof_score then
      reasons ++ ["Elevated LOF score (" ++ fmtQFixed 2 score.lof_score ++ ")"]
    else reasons
  let reasons :=
    if score.reverse_knn_count = 0 then
      reasons ++ ["Zero reverse neighbors - nothing considers this code similar"]
    else if score.reverse_knn_count < 3 then
      reasons ++ ["Low reverse neighbors (" ++
        toString score.reverse_knn_count ++ ") - rarely referenced as similar"]
    else reasons
  let reasons :=
    if reasons.isEmpty then ["Slightly elevated anomaly metrics"] else reasons
  String.intercalate " | " reasons

/-- The reason clauses of the kNN-distance rule exactly as the claim
describes them (raw distance, high above 0.5, moderate above 0.3). -/
def knnReasonClauses (score : AnomalyScore) : List String :=
  if F.blt (F.q (1/2)) score.knn_distance then
    ["High distance to neighbors (" ++ fmtF 3 score.knn_distance ++
      ") - isolated in embedding space"]
  else if F.blt (F.q (3/10)) score.knn_distance then
    ["Moderate distance to neighbors (" ++ fmtF 3 score.knn_distance ++ ")"]
  else []

/-- The reason clauses of the LOF rule exactly as the claim describes them
(high above 1.5, elevated above 1.2). -/
def lofReasonClauses (score : AnomalyScore) : List String :=
  if (3/2 : ℚ) < score.lof_score then
    ["High LOF score (" ++ fmtQFixed 2 score.lof_score ++
      ") - in a sparse region compared to neighbors"]
  else if (6/5 : ℚ) < score.lof_score then
    ["Elevated LOF score (" ++ fmtQFixed 2 score.lof_score ++ ")"]
  else []

/-- The reason clauses of the reverse-kNN rule exactly as the claim
describes them (zero at 0, low below 3). -/
def rknnReasonClauses (score : AnomalyScore) : List String :=
  if score.reverse_knn_count = 0 then
    ["Zero reverse neighbors - nothing considers this code similar"]
  else if score.reverse_knn_count < 3 then
    ["Low reverse neighbors (" ++ toString score.reverse_knn_count ++
      ") - rarely referenced as similar"]
  else []

/-- The flat, in-order list of all neighbor ids returned over the full query
pass of `compute_reverse_knn`. -/
def allNeighborIds (idx : HNSWIndex) (k : Nat) : List Nat :=
  (List.range idx.count).flatMap
    (fun i => (idx.getNeighbors i k).map Prod.fst)

/-- The number of items whose k-nearest-neighbor query listed item `x`
(the claim's reading of the reverse-kNN count). -/
def reverseKnnSpec (idx : HNSWIndex) (k x : Nat) : Nat :=
  ((List.range idx.count).filter
    (fun i => x ∈ (idx.getNeighbors i k).map Prod.fst)).length

/-- A two-item conforming index in which each item is the other's sole
neighbor at distance 0.4 — used to witness hypotheses at concrete inputs. -/
def ex2 : HNSWIndex where
  count := 2
  getNeighbors := fun i _k =>
    if i = 0 then [(1, 2/5)] else if i = 1 then [(0, 2/5)] else []
  lofOracle := fun _ => 1

/-- A two-item conforming index in which item 0 has one neighbor and item 1
has none: its kNN-distance array mixes the finite value 0.4 with
`float('inf')`, so `normalize` produces NaN for item 1. -/
def mixedEx : HNSWIndex where
  count := 2
  getNeighbors := fun i _k => if i = 0 then [(1, 2/5)] else []
  lofOracle := fun _ => 1

/-- The concrete record of the claim's scenario:
`knn_distance = 0.6`, `lof_score = 1.6`, `reverse_knn_count = 0`. -/
def scenarioScore : AnomalyScore :=
  { item_id := 0, knn_distance := F.q (3/5), lof_score := 8/5,
    reverse_knn_count := 0, isolation_score := F.q 0, neighbors := [],
    rank := 0 }

/-- A record with mid-range explanation inputs (no rule fires on the
distance or LOF, reverse count 7). -/
def quietScoreA : AnomalyScore :=
  { item_id := 0, knn_distance := F.q (1/5), lof_score := 1,
    reverse_knn_count := 7, isolation_score := F.q 0, neighbors := [],
    rank := 1 }

/-- The same explanation inputs as `quietScoreA` with different `item_id`,
`isolation_score`, `neighbors` and `rank`. -/
def quietScoreB : AnomalyScore :=
  { item_id := 5, knn_distance := F.q (1/5), lof_score := 1,
    reverse_knn_count := 7, isolation_score := F.q (1/2),
    neighbors := [1, 2], rank := 2 }

/-! ### Generic facts about the stable sort and the rank pass -/

theorem insertBy_nil (le : α → α → Bool) (a : α) : insertBy le a [] = [a] :=
  rfl

theorem insertBy_cons (le : α → α → Bool) (a b : α) (l : List α) :
    insertBy le a (b :: l) =
      if le a b then a :: b :: l else b :: insertBy le a l :=
  rfl

theorem insertBy_perm (le : α → α → Bool) (a : α) (l : List α) :
    (insertBy le a l).Perm (a :: l) := by
  induction l with
  | nil => exact List.Perm.refl _
  | cons b l ih =>
    rw [insertBy_cons]
    by_cases h : le a b = true
    · rw [if_pos h]
    · rw [if_neg h]
      exact (ih.cons b).trans (List.Perm.swap a b l)

theorem sortBy_perm (le : α → α → Bool) (l : List α) :
    (sortBy le l).Perm l := by
  induction l with
  | nil => exact List.Perm.refl _
  | cons a l ih =>
    exact (insertBy_perm le a (sortBy le l)).trans (ih.cons a)

theorem sortBy_length (le : α → α → Bool) (l : List α) :
    (sortBy le l).length = l.length :=
  (sortBy_perm le l).length_eq

theorem mem_insertBy {le : α → α → Bool} {a x : α} {l : List α} :
    x ∈ insertBy le a l ↔ x = a ∨ x ∈ l := by
  rw [(insertBy_perm le a l).mem_iff]
  exact List.mem_cons

theorem mem_sortBy {le : α → α → Bool} {x : α} {l : List α} :
    x ∈ sortBy le l ↔ x ∈ l :=
  (sortBy_perm le l).mem_iff

/-- Stability and sortedness of `insertBy` in one step: inserting `a` into a
list that is both `le`-sorted and `S`-pairwise keeps both, provided `le` is
total towards `a`, transitivity holds along `a`, and `S` relates `a` with
each element in the direction the comparator dictates. -/
theorem insertBy_pairwise (le : α → α → Bool) (S : α → α → Prop) (a : α)
    (l : List α)
    (hsort : l.Pairwise (fun x y => le x y = true))
    (hS : l.Pairwise S)
    (htrans : ∀ y ∈ l, ∀ z ∈ l, le a y = true → le y z = true → le a z = true)
    (htot : ∀ b ∈ l, le a b = true ∨ le b a = true)
    (hSa : ∀ b ∈ l, le a b = true → S a b)
    (hSb : ∀ b ∈ l, le a b = false → S b a) :
    (insertBy le a l).Pairwise (fun x y => le x y = true) ∧
    (insertBy le a l).Pairwise S := by
  induction l with
  | nil => simp [insertBy]
  | cons b l ih =>
    rcases List.pairwise_cons.mp hsort with ⟨hb_le, hsort'⟩
    rcases List.pairwise_cons.mp hS with ⟨hb_S, hS'⟩
    rw [insertBy_cons]
    by_cases h : le a b = true
    · rw [if_pos h]
      constructor
      · refine List.pairwise_cons.mpr ⟨?_, hsort⟩
        intro y hy
        rcases List.mem_cons.mp hy with hyb | hy
        · exact hyb ▸ h
        · exact htrans b (by simp) y (by simp [hy]) h (hb_le y hy)
      · refine List.pairwise_cons.mpr ⟨?_, hS⟩
        intro y hy
        rcases List.mem_cons.mp hy with hyb | hy
        · exact hyb ▸ hSa b (by simp) h
        · exact hSa y (by simp [hy])
            (htrans b (by simp) y (by simp [hy]) h (hb_le y hy))
    · rw [if_neg h]
      have hba : le b a = true := by
        rcases htot b (by simp) with h' | h'
        · exact absurd h' h
        · exact h'
      have ih' := ih hsort' hS'
        (fun y hy z hz => htrans y (by simp [hy]) z (by simp [hz]))
        (fun y hy => htot y (by simp [hy]))
        (fun y hy => hSa y (by simp [hy]))
        (fun y hy => hSb y (by simp [hy]))
      constructor
      · refine List.pairwise_cons.mpr ⟨?_, ih'.1⟩
        intro y hy
        rcases mem_insertBy.mp hy with hya | hy
        · exact hya ▸ hba
        · exact hb_le y hy
      · refine List.pairwise_cons.mpr ⟨?_, ih'.2⟩
        intro y hy
        rcases mem_insertBy.mp hy with hya | hy
        · exact hya ▸ hSb b (by simp) (Bool.not_eq_true _ ▸ h)
        · exact hb_S y hy

/-- Sortedness plus stability of `sortBy`: if `le` is total and transitive on
the elements of `l`, and the original order of `l` is compatible with `S` in
the sense that for `x` before `y` either comparator outcome yields the
corresponding `S` fact, then the sorted list is pairwise `S` (and pairwise
`le`-sorted). -/
theorem sortBy_pairwise (le : α → α → Bool) (S : α → α → Prop) (l : List α)
    (htrans : ∀ x ∈ l, ∀ y ∈ l, ∀ z ∈ l,
      le x y = true → le y z = true → le x z = true)
    (htot : ∀ x ∈ l, ∀ y ∈ l, le x y = true ∨ le y x = true)
    (hcompat : l.Pairwise (fun x y =>
      (le x y = true → S x y) ∧ (le x y = false → S y x))) :
    (sortBy le l).Pairwise (fun x y => le x y = true) ∧
    (sortBy le l).Pairwise S := by
  induction l with
  | nil => simp [sortBy]
  | cons a l ih =>
    rcases List.pairwise_cons.mp hcompat with ⟨ha, hcompat'⟩
    have ih' := ih
      (fun x hx y hy z hz => htrans x (by simp [hx]) y (by simp [hy]) z (by simp [hz]))
      (fun x hx y hy => htot x (by simp [hx]) y (by simp [hy]))
      hcompat'
    exact insertBy_pairwise le S a (sortBy le l) ih'.1 ih'.2
      (fun y hy z hz => htrans a (by simp) y (by simp [mem_sortBy.mp hy])
        z (by simp [mem_sortBy.mp hz]))
      (fun b hb => htot a (by simp) b (by simp [mem_sortBy.mp hb]))
      (fun b hb hle => (ha b (mem_sortBy.mp hb)).1 hle)
      (fun b hb hle => (ha b (mem_sortBy.mp hb)).2 hle)

theorem assignRanks_length (start : Nat) (l : List AnomalyScore) :
    (assignRanks start l).length = l.length := by
  induction l generalizing start with
  | nil => rfl
  | cons s l ih => simp [assignRanks, ih]

theorem assignRanks_map_rank (start : Nat) (l : List AnomalyScore) :
    (assignRanks start l).map (fun s => s.rank) =
      List.range' start l.length := by
  induction l generalizing start with
  | nil => rfl
  | cons s l ih =>
    simp [assignRanks, List.range'_succ, ih]

/-! ### The behaviour of normalize on finite and on all-infinite arrays -/

/-- Maximum of a nonempty rational array, as `numpy`'s reduction computes it
(the `[]` case is an arbitrary total completion, as in `normalize`). -/
def listMax : List ℚ → ℚ
  | [] => 0
  | v :: vs => vs.foldl max v

/-- Minimum of a nonempty rational array, as `numpy`'s reduction computes it. -/
def listMin : List ℚ → ℚ
  | [] => 0
  | v :: vs => vs.foldl min v

theorem fmax_q_q (a b : ℚ) : F.fmax (F.q a) (F.q b) = F.q (max a b) := by
  simp only [F.fmax, F.ble, max_def]
  by_cases h : a ≤ b <;> simp [h]

theorem fmin_q_q (a b : ℚ) : F.fmin (F.q a) (F.q b) = F.q (min a b) := by
  simp only [F.fmin, F.ble, min_def]
  by_cases h : a ≤ b <;> simp [h]

theorem foldl_fmax_map_q (l : List ℚ) (a : ℚ) :
    List.foldl F.fmax (F.q a) (l.map F.q) = F.q (l.foldl max a) := by
  induction l generalizing a with
  | nil => rfl
  | cons b l ih => simp [fmax_q_q, ih]

theorem foldl_fmin_map_q (l : List ℚ) (a : ℚ) :
    List.foldl F.fmin (F.q a) (l.map F.q) = F.q (l.foldl min a) := by
  induction l generalizing a with
  | nil => rfl
  | cons b l ih => simp [fmin_q_q, ih]

theorem init_le_foldl_max (l : List ℚ) (a : ℚ) : a ≤ l.foldl max a := by
  induction l generalizing a with
  | nil => exact le_refl a
  | cons b l ih => exact le_trans (le_max_left a b) (ih (max a b))

theorem le_foldl_max_of_mem {l : List ℚ} {x : ℚ} (hx : x ∈ l) (a : ℚ) :
    x ≤ l.foldl max a := by
  induction l generalizing a with
  | nil => cases hx
  | cons b l ih =>
    rcases List.mem_cons.mp hx with rfl | hx
    · exact le_trans (le_max_right a x) (init_le_foldl_max l (max a x))
    · exact ih hx (max a b)

theorem foldl_min_le_init (l : List ℚ) (a : ℚ) : l.foldl min a ≤ a := by
  induction l generalizing a with
  | nil => exact le_refl a
  | cons b l ih => exact le_trans (ih (min a b)) (min_le_left a b)

theorem foldl_min_le_of_mem {l : List ℚ} {x : ℚ} (hx : x ∈ l) (a : ℚ) :
    l.foldl min a ≤ x := by
  induction l generalizing a with
  | nil => cases hx
  | cons b l ih =>
    rcases List.mem_cons.mp hx with rfl | hx
    · exact le_trans (foldl_min_le_init l (min a x)) (min_le_right a x)
    · exact ih hx (min a b)

theorem listMin_le_of_mem {l : List ℚ} {x : ℚ} (hx : x ∈ l) :
    listMin l ≤ x := by
  cases l with
  | nil => cases hx
  | cons v vs =>
    rcases List.mem_cons.mp hx with rfl | hx
    · exact foldl_min_le_init vs x
    · exact foldl_min_le_of_mem hx v

theorem le_listMax_of_mem {l : List ℚ} {x : ℚ} (hx : x ∈ l) :
    x ≤ listMax l := by
  cases l with
  | nil => cases hx
  | cons v vs =>
    rcases List.mem_cons.mp hx with rfl | hx
    · exact init_le_foldl_max vs x
    · exact le_foldl_max_of_mem hx v

theorem F.sub_q (a b : ℚ) : F.sub (F.q a) (F.q b) = F.q (a - b) := by
  simp [F.sub, F.neg, F.add, sub_eq_add_neg]

theorem F.div_q {b : ℚ} (a : ℚ) (hb : b ≠ 0) :
    F.div (F.q a) (F.q b) = F.q (a / b) := by
  simp only [F.div, if_neg hb]

theorem F.beq_q (a b : ℚ) : F.beq (F.q a) (F.q b) = decide (a = b) := rfl

/-- On a constant finite array, `normalize` returns 0.5 everywhere,
whatever the inversion flag. -/
theorem normalize_map_q_const (vs : List ℚ) (inv : Bool)
    (h : listMax vs = listMin vs) :
    normalize (vs.map F.q) inv = vs.map (fun _ => F.q (1/2)) := by
  cases vs with
  | nil => simp [normalize]
  | cons v vs =>
    have h' : vs.foldl max v = vs.foldl min v := h
    show normalize (F.q v :: vs.map F.q) inv = _
    rw [normalize, foldl_fmax_map_q, foldl_fmin_map_q, F.beq_q,
      if_pos (decide_eq_true h')]
    simp [Function.comp_def]

/-- On a non-constant finite array, `normalize` performs exactly the min-max
rescaling `(x - min)/(max - min)` of the claim, flipped to `1 - v` by the
inversion flag. -/
theorem normalize_map_q_nonconst (vs : List ℚ) (inv : Bool)
    (h : listMax vs ≠ listMin vs) :
    normalize (vs.map F.q) inv = vs.map (fun x =>
      F.q (if inv then
        1 - (x - listMin vs) / (listMax vs - listMin vs)
      else (x - listMin vs) / (listMax vs - listMin vs))) := by
  cases vs with
  | nil => simp [normalize]
  | cons v vs =>
    have h' : vs.foldl max v ≠ vs.foldl min v := h
    have hd : listMax (v :: vs) - listMin (v :: vs) ≠ 0 := sub_ne_zero_of_ne h
    show normalize (F.q v :: vs.map F.q) inv = _
    rw [normalize, foldl_fmax_map_q, foldl_fmin_map_q, F.beq_q,
      if_neg (by simpa using h')]
    have hlist : F.q v :: vs.map F.q = (v :: vs).map F.q := rfl
    rw [hlist, List.map_map]
    refine List.map_congr_left ?_
    intro x _
    simp only [Function.comp_apply]
    rw [F.sub_q x, F.sub_q]
    rw [show vs.foldl max v - vs.foldl min v = listMax (v :: vs) - listMin (v :: vs) from rfl,
      show (x - vs.foldl min v) = (x - listMin (v :: vs)) from rfl,
      F.div_q _ hd]
    cases inv with
    | false => simp [F.sub_q]
    | true => simp [F.sub_q]

theorem foldl_fmax_pinf (vs : List F) (h : ∀ x ∈ vs, x = F.pinf) :
    vs.foldl F.fmax F.pinf = F.pinf := by
  induction vs with
  | nil => rfl
  | cons v vs ih =>
    have hv : v = F.pinf := h v (by simp)
    rw [List.foldl_cons, hv]
    exact ih (fun x hx => h x (by simp [hx]))

theorem foldl_fmin_pinf (vs : List F) (h : ∀ x ∈ vs, x = F.pinf) :
    vs.foldl F.fmin F.pinf = F.pinf := by
  induction vs with
  | nil => rfl
  | cons v vs ih =>
    have hv : v = F.pinf := h v (by simp)
    rw [List.foldl_cons, hv]
    exact ih (fun x hx => h x (by simp [hx]))

/-- On an array every entry of which is `+inf` (every item lacking
neighbors), `max == min` holds (`inf == inf` is true for floats), so
`normalize` returns 0.5 everywhere. -/
theorem normalize_all_pinf (values : List F) (inv : Bool)
    (h : ∀ x ∈ values, x = F.pinf) :
    normalize values inv = values.map (fun _ => F.q (1/2)) := by
  cases values with
  | nil => rfl
  | cons v vs =>
    have hv : v = F.pinf := h v (by simp)
    have hvs : ∀ x ∈ vs, x = F.pinf := fun x hx => h x (by simp [hx])
    rw [normalize, hv, foldl_fmax_pinf vs hvs, foldl_fmin_pinf vs hvs]
    rw [if_pos (show F.beq F.pinf F.pinf = true from rfl)]

theorem exists_eq_map_q (values : List F)
    (h : ∀ x ∈ values, ∃ r : ℚ, x = F.q r) :
    ∃ ws : List ℚ, values = ws.map F.q := by
  induction values with
  | nil => exact ⟨[], rfl⟩
  | cons v vs ih =>
    obtain ⟨r, hr⟩ := h v (by simp)
    obtain ⟨ws, hws⟩ := ih (fun x hx => h x (by simp [hx]))
    exact ⟨r :: ws, by rw [hr, hws]; rfl⟩

theorem listMin_le_listMax {vs : List ℚ} (h : vs ≠ []) :
    listMin vs ≤ listMax vs := by
  cases vs with
  | nil => exact absurd rfl h
  | cons v vs =>
    exact le_trans (foldl_min_le_init vs v) (init_le_foldl_max vs v)

/-- Whenever the input array is all-finite or all-`+inf` (in particular for
every signal array `analyze` produces on a `NoMixedInf` index), every entry
of `normalize`'s output is a rational in `[0, 1]`. -/
theorem normalize_bounds (values : List F) (inv : Bool)
    (h : (∀ x ∈ values, ∃ r : ℚ, x = F.q r) ∨ (∀ x ∈ values, x = F.pinf)) :
    ∀ y ∈ normalize values inv, ∃ r : ℚ, y = F.q r ∧ 0 ≤ r ∧ r ≤ 1 := by
  rcases h with h | h
  · obtain ⟨ws, rfl⟩ := exists_eq_map_q values h
    by_cases hc : listMax ws = listMin ws
    · rw [normalize_map_q_const ws inv hc]
      intro y hy
      obtain ⟨x, _, rfl⟩ := List.mem_map.mp hy
      exact ⟨1/2, rfl, by norm_num, by norm_num⟩
    · rw [normalize_map_q_nonconst ws inv hc]
      intro y hy
      obtain ⟨x, hx, rfl⟩ := List.mem_map.mp hy
      have hne : ws ≠ [] := by rintro rfl; cases hx
      have hlt : listMin ws < listMax ws :=
        lt_of_le_of_ne (listMin_le_listMax hne) (fun e => hc e.symm)
      have hpos : 0 < listMax ws - listMin ws := by linarith
      have hxl : listMin ws ≤ x := listMin_le_of_mem hx
      have hxu : x ≤ listMax ws := le_listMax_of_mem hx
      have h0 : 0 ≤ (x - listMin ws) / (listMax ws - listMin ws) :=
        div_nonneg (by linarith) (le_of_lt hpos)
      have h1 : (x - listMin ws) / (listMax ws - listMin ws) ≤ 1 :=
        (div_le_one hpos).mpr (by linarith)
      refine ⟨if inv then 1 - (x - listMin ws) / (listMax ws - listMin ws)
        else (x - listMin ws) / (listMax ws - listMin ws), rfl, ?_, ?_⟩
      · cases inv with
        | false => simpa using h0
        | true => simp only [if_true]; linarith
      · cases inv with
        | false => simpa using h1
        | true => simp only [if_true]; linarith
  · rw [normalize_all_pinf values inv h]
    intro y hy
    obtain ⟨x, _, rfl⟩ := List.mem_map.mp hy
    exact ⟨1/2, rfl, by norm_num, by norm_num⟩

theorem getD_map_q (vs : List ℚ) (g : ℚ → F) {i : Nat} (h : i < vs.length)
    (d : F) : (vs.map g).getD i d = g (vs.getD i 0) := by
  rw [List.getD_eq_getElem?_getD, List.getElem?_map,
    List.getElem?_eq_getElem h]
  rw [List.getD_eq_getElem vs 0 h]
  rfl

/-- Claim C3, amended.  On a non-constant array of finite values
(`max != min` — note this forces the array to be nonempty), `normalize`
maps the element at each position `i` to `(x - min)/(max - min)` (flipped
to `1 - v` under the inversion flag); positions holding the minimum map to
0 (1 when inverted), positions holding the maximum map to 1 (0 when
inverted), and every output is a rational in `[0, 1]`.  The restriction to
finite arrays is forced: a non-constant array containing `+inf` (a genuine
input here — the kNN distances of an index mixing items with and without
neighbors) maps its maximum to `inf/inf = NaN` rather than 1 and leaves
`[0, 1]`. -/
theorem normalize_nonconstant_minmax (vs : List ℚ) (inv : Bool)
    (h : listMax vs ≠ listMin vs) :
    (∀ i, ∀ _ : i < vs.length,
      (normalize (vs.map F.q) inv).getD i (F.q 0) =
        F.q (if inv then
          1 - (vs.getD i 0 - listMin vs) / (listMax vs - listMin vs)
        else (vs.getD i 0 - listMin vs) / (listMax vs - listMin vs))) ∧
    (∀ i, ∀ _ : i < vs.length, vs.getD i 0 = listMin vs →
      (normalize (vs.map F.q) inv).getD i (F.q 0) =
        F.q (if inv then 1 else 0)) ∧
    (∀ i, ∀ _ : i < vs.length, vs.getD i 0 = listMax vs →
      (normalize (vs.map F.q) inv).getD i (F.q 0) =
        F.q (if inv then 0 else 1)) ∧
    (∀ y ∈ normalize (vs.map F.q) inv, ∃ r : ℚ, y = F.q r ∧ 0 ≤ r ∧ r ≤ 1) := by
  have hpt : ∀ i, ∀ _ : i < vs.length,
      (normalize (vs.map F.q) inv).getD i (F.q 0) =
        F.q (if inv then
          1 - (vs.getD i 0 - listMin vs) / (listMax vs - listMin vs)
        else (vs.getD i 0 - listMin vs) / (listMax vs - listMin vs)) := by
    intro i hi
    rw [normalize_map_q_nonconst vs inv h, getD_map_q vs _ hi]
  have hd : listMax vs - listMin vs ≠ 0 := sub_ne_zero_of_ne h
  refine ⟨hpt, ?_, ?_, ?_⟩
  · intro i hi hmin
    rw [hpt i hi, hmin, sub_self, zero_div]
    cases inv with
    | false => rfl
    | true => norm_num
  · intro i hi hmax
    rw [hpt i hi, hmax, div_self hd]
    cases inv with
    | false => rfl
    | true => norm_num
  · exact normalize_bounds (vs.map F.q) inv
      (Or.inl (fun x hx => by
        obtain ⟨w, _, rfl⟩ := List.mem_map.mp hx; exact ⟨w, rfl⟩))

/-- Witness for C3: the array `[1, 3, 2]` is non-constant; without inversion
position 0 (the minimum) maps to 0 and position 1 (the maximum) maps to 1. -/
theorem normalize_nonconstant_minmax_witness :
    listMax [(1:ℚ), 3, 2] ≠ listMin [(1:ℚ), 3, 2] ∧
    (normalize ([(1:ℚ), 3, 2].map F.q) false).getD 0 (F.q 0) = F.q 0 ∧
    (normalize ([(1:ℚ), 3, 2].map F.q) false).getD 1 (F.q 0) = F.q 1 := by
  have h : listMax [(1:ℚ), 3, 2] ≠ listMin [(1:ℚ), 3, 2] := by
    with_unfolding_all decide
  have H := normalize_nonconstant_minmax [(1:ℚ), 3, 2] false h
  refine ⟨h, ?_, ?_⟩
  · exact H.2.1 0 (by norm_num) (by with_unfolding_all decide)
  · exact H.2.2.1 1 (by norm_num) (by with_unfolding_all decide)

/-- Counterexample to C3 as stated: the array `[0.4, +inf]` — a genuine
`normalize` input, namely the kNN-distance array of the conforming index
`mixedEx` — is non-constant in the source's own test (`arr.max()` is
`+inf`, `arr.min()` is 0.4, and their float `==` is false), yet its
maximum entry maps to `(inf - 0.4)/(inf - 0.4) = inf/inf = NaN` rather
than 1, NaN is not the claimed value 1, and NaN lies outside `[0, 1]`
under IEEE comparisons (`0 ≤ NaN` is false). -/
theorem normalize_nonconstant_minmax_counterexample :
    F.beq (List.foldl F.fmax (F.q (2/5)) [F.pinf])
      (List.foldl F.fmin (F.q (2/5)) [F.pinf]) = false ∧
    normalize [F.q (2/5), F.pinf] false = [F.q 0, F.nan] ∧
    F.nan ≠ F.q 1 ∧
    F.ble (F.q 0) F.nan = false := by
  with_unfolding_all decide

theorem F.fmax_self (c : F) : F.fmax c c = c := by
  cases c with
  | nan => rfl
  | pinf => rfl
  | ninf => rfl
  | q a =>
    show (if F.ble (F.q a) (F.q a) = true then F.q a else F.q a) = F.q a
    exact ite_self _

theorem F.fmin_self (c : F) : F.fmin c c = c := by
  cases c with
  | nan => rfl
  | pinf => rfl
  | ninf => rfl
  | q a =>
    show (if F.ble (F.q a) (F.q a) = true then F.q a else F.q a) = F.q a
    exact ite_self _

theorem F.beq_self_of_ne_nan {c : F} (hc : c ≠ F.nan) : F.beq c c = true := by
  cases c with
  | nan => exact absurd rfl hc
  | pinf => rfl
  | ninf => rfl
  | q a => simp [F.beq]

theorem foldl_fmax_const (c : F) (l : List F) (h : ∀ x ∈ l, x = c) :
    l.foldl F.fmax c = c := by
  induction l with
  | nil => rfl
  | cons b l ih =>
    have hb : b = c := h b (by simp)
    rw [List.foldl_cons, hb, F.fmax_self]
    exact ih (fun x hx => h x (by simp [hx]))

theorem foldl_fmin_const (c : F) (l : List F) (h : ∀ x ∈ l, x = c) :
    l.foldl F.fmin c = c := by
  induction l with
  | nil => rfl
  | cons b l ih =>
    have hb : b = c := h b (by simp)
    rw [List.foldl_cons, hb, F.fmin_self]
    exact ih (fun x hx => h x (by simp [hx]))

/-- Claim C4.  On a constant float array in the claim's sense — every
element equal to one value `c` with `max == min`, which for floats means
`c` is any non-NaN value: a finite constant, or `+inf` at every position
(the kNN array of an index where every item is neighborless), or `-inf` —
`normalize` returns 0.5 at every position, whether or not the inversion
flag is set.  (An all-NaN array is outside the claim's `max == min` scope:
`nan == nan` is false for floats.) -/
theorem normalize_constant_returns_half (values : List F) (c : F)
    (inv : Bool) (hc : c ≠ F.nan) (h : ∀ x ∈ values, x = c) :
    normalize values inv = values.map (fun _ => F.q (1/2)) := by
  cases values with
  | nil => rfl
  | cons v vs =>
    have hv : v = c := h v (by simp)
    have hvs : ∀ x ∈ vs, x = c := fun x hx => h x (by simp [hx])
    rw [normalize, hv, foldl_fmax_const c vs hvs, foldl_fmin_const c vs hvs,
      if_pos (F.beq_self_of_ne_nan hc)]

/-- Witness for C4 at two concrete constant arrays: the finite `[3, 3]`
with the inversion flag set, and the all-infinite `[inf, inf]` without it,
both yield 0.5 at every position. -/
theorem normalize_constant_returns_half_witness :
    normalize [F.q 3, F.q 3] true = [F.q (1/2), F.q (1/2)] ∧
    normalize [F.pinf, F.pinf] false = [F.q (1/2), F.q (1/2)] := by
  constructor
  · have H := normalize_constant_returns_half [F.q 3, F.q 3] (F.q 3) true
      (fun hc => F.noConfusion hc) (by with_unfolding_all decide)
    simpa using H
  · have H := normalize_constant_returns_half [F.pinf, F.pinf] F.pinf false
      (fun hc => F.noConfusion hc) (by with_unfolding_all decide)
    simpa using H

theorem getD_map_range (f : Nat → α) {n i : Nat} (h : i < n) (d : α) :
    ((List.range n).map f).getD i d = f i := by
  rw [List.getD_eq_getElem?_getD, List.getElem?_map, List.getElem?_range h]
  rfl

/-- Claim C6.  When `count() < k + 1` there is not enough data for the LOF
estimator and every item id in `[0, count)` receives the LOF score exactly
1.0 (vacuously including `count() == 0`). -/
theorem compute_lof_insufficient_data (idx : HNSWIndex) (k : Nat)
    (h : idx.count < k + 1) :
    ∀ i < idx.count, (compute_lof idx k).getD i 0 = 1 := by
  intro i hi
  rw [compute_lof, if_pos h, getD_map_range _ hi]

/-- Witness for C6: the two-item index with `k = 10` has `2 < 11`, and both
items receive LOF score 1. -/
theorem compute_lof_insufficient_data_witness :
    ex2.count < 10 + 1 ∧ (compute_lof ex2 10).getD 0 0 = 1 ∧
      (compute_lof ex2 10).getD 1 0 = 1 := by
  refine ⟨by decide, ?_, ?_⟩
  · exact compute_lof_insufficient_data ex2 10 (by decide) 0 (by decide)
  · exact compute_lof_insufficient_data ex2 10 (by decide) 1 (by decide)

/-! ### The reverse-kNN counter -/

theorem any_key_iff (m : List (Nat × Nat)) (x : Nat) :
    (m.any (fun p => p.1 == x)) = true ↔ x ∈ m.map Prod.fst := by
  rw [List.any_eq_true]
  constructor
  · rintro ⟨p, hp, hb⟩
    exact List.mem_map.mpr ⟨p, hp, beq_iff_eq.mp hb⟩
  · intro hm
    rcases List.mem_map.mp hm with ⟨p, hp, he⟩
    exact ⟨p, hp, beq_iff_eq.mpr he⟩

theorem lookup_cons (k v y : Nat) (m : List (Nat × Nat)) :
    List.lookup y ((k, v) :: m) =
      if y = k then some v else List.lookup y m := by
  by_cases h : y = k
  · rw [if_pos h]
    show (match y == k with
      | true => some v | false => List.lookup y m) = some v
    rw [beq_iff_eq.mpr h]
  · rw [if_neg h]
    show (match y == k with
      | true => some v | false => List.lookup y m) = List.lookup y m
    rw [beq_false_of_ne h]

theorem lookup_append (m m' : List (Nat × Nat)) (y : Nat) :
    (m ++ m').lookup y = ((m.lookup y).or (m'.lookup y)) := by
  induction m with
  | nil => simp [List.lookup]
  | cons p m ih =>
    rcases p with ⟨k, v⟩
    rw [List.cons_append, lookup_cons, lookup_cons]
    by_cases h : y = k
    · rw [if_pos h, if_pos h]
      rfl
    · rw [if_neg h, if_neg h, ih]

theorem lookup_none_iff (m : List (Nat × Nat)) (y : Nat) :
    m.lookup y = none ↔ y ∉ m.map Prod.fst := by
  induction m with
  | nil => simp [List.lookup]
  | cons p m ih =>
    rcases p with ⟨k, v⟩
    rw [lookup_cons]
    by_cases h : y = k
    · rw [if_pos h]
      simp [h]
    · rw [if_neg h]
      simp [ih, h]

theorem lookup_map_bump (m : List (Nat × Nat)) (x y : Nat) :
    (m.map (fun p => if p.1 == x then (p.1, p.2 + 1) else p)).lookup y =
      (m.lookup y).map (fun v => if y = x then v + 1 else v) := by
  induction m with
  | nil => simp [List.lookup]
  | cons p m ih =>
    rcases p with ⟨k, v⟩
    rw [List.map_cons]
    by_cases hkx : k = x
    · rw [show (if (((k, v) : Nat × Nat).1 == x) = true
          then (((k, v) : Nat × Nat).1, ((k, v) : Nat × Nat).2 + 1)
          else ((k, v) : Nat × Nat)) = (k, v + 1) by
        rw [if_pos (beq_iff_eq.mpr hkx)]]
      rw [lookup_cons, lookup_cons]
      by_cases hyk : y = k
      · rw [if_pos hyk, if_pos hyk]
        have hyx : y = x := hyk.trans hkx
        simp [hyx]
      · rw [if_neg hyk, if_neg hyk, ih]
    · rw [show (if (((k, v) : Nat × Nat).1 == x) = true
          then (((k, v) : Nat × Nat).1, ((k, v) : Nat × Nat).2 + 1)
          else ((k, v) : Nat × Nat)) = (k, v) by
        rw [if_neg]
        rw [show ((k, v) : Nat × Nat).1 = k from rfl, beq_false_of_ne hkx]
        exact Bool.false_ne_true]
      rw [lookup_cons, lookup_cons]
      by_cases hyk : y = k
      · rw [if_pos hyk, if_pos hyk]
        have hyx : ¬ y = x := fun e => hkx (hyk.symm.trans e)
        simp [hyx]
      · rw [if_neg hyk, if_neg hyk, ih]

theorem updateCounter_keys (m : List (Nat × Nat)) (x : Nat) :
    (updateCounter m x).map Prod.fst =
      if x ∈ m.map Prod.fst then m.map Prod.fst
      else m.map Prod.fst ++ [x] := by
  rw [updateCounter]
  by_cases h : (m.any (fun p => p.1 == x)) = true
  · rw [if_pos h, if_pos ((any_key_iff m x).mp h), List.map_map]
    refine List.map_congr_left ?_
    intro p _
    by_cases hp : p.1 = x
    · simp [hp]
    · simp [hp]
  · rw [if_neg h, if_neg (fun hm => h ((any_key_iff m x).mpr hm))]
    simp

theorem updateCounter_lookup (m : List (Nat × Nat)) (x y : Nat) :
    (updateCounter m x).lookup y =
      if y = x then some ((m.lookup x).getD 0 + 1) else m.lookup y := by
  rw [updateCounter]
  by_cases h : (m.any (fun p => p.1 == x)) = true
  · rw [if_pos h, lookup_map_bump]
    by_cases hyx : y = x
    · have hx : x ∈ m.map Prod.fst := (any_key_iff m x).mp h
      rcases ho : m.lookup x with _ | v
      · exact absurd ((lookup_none_iff m x).mp ho) (fun c => c hx)
      · rw [hyx, ho]
        simp
    · rcases ho : m.lookup y with _ | v <;> simp [ho, hyx]
  · rw [if_neg h, lookup_append]
    by_cases hyx : y = x
    · have hx : x ∉ m.map Prod.fst := fun hm => h ((any_key_iff m x).mpr hm)
      rw [hyx, (lookup_none_iff m x).mpr hx, lookup_cons, if_pos rfl,
        if_pos rfl]
      rfl
    · rw [if_neg hyx, lookup_cons, if_neg hyx]
      rcases ho : m.lookup y with _ | v <;> simp [ho, List.lookup]

theorem mem_updateCounter_keys (m : List (Nat × Nat)) (x y : Nat) :
    y ∈ (updateCounter m x).map Prod.fst ↔ y ∈ m.map Prod.fst ∨ y = x := by
  rw [updateCounter_keys]
  by_cases h : x ∈ m.map Prod.fst
  · rw [if_pos h]
    constructor
    · exact Or.inl
    · rintro (hy | rfl)
      · exact hy
      · exact h
  · rw [if_neg h]
    simp

theorem updateCounter_keys_nodup {m : List (Nat × Nat)} (x : Nat)
    (h : (m.map Prod.fst).Nodup) : ((updateCounter m x).map Prod.fst).Nodup := by
  rw [updateCounter_keys]
  by_cases hx : x ∈ m.map Prod.fst
  · rwa [if_pos hx]
  · rw [if_neg hx]
    rw [List.nodup_append]
    refine ⟨h, List.nodup_singleton x, ?_⟩
    intro a ha hax
    have hax' : a = x := List.mem_singleton.mp hax
    exact hx (hax' ▸ ha)

theorem foldl_updateCounter_lookup (L : List Nat) (m : List (Nat × Nat))
    (y : Nat) :
    (L.foldl updateCounter m).lookup y =
      if y ∈ m.map Prod.fst ∨ y ∈ L
      then some ((m.lookup y).getD 0 + L.count y)
      else none := by
  induction L generalizing m with
  | nil =>
    by_cases h : y ∈ m.map Prod.fst
    · rcases ho : m.lookup y with _ | v
      · exact absurd ((lookup_none_iff m y).mp ho) (fun c => c h)
      · simp [h, ho]
    · rw [if_neg (by simpa using h)]
      exact (lookup_none_iff m y).mpr h
  | cons a L ih =>
    rw [List.foldl_cons, ih, updateCounter_lookup]
    by_cases hya : y = a
    · rw [if_pos hya]
      have hmem : y ∈ (updateCounter m a).map Prod.fst :=
        (mem_updateCounter_keys m a y).mpr (Or.inr hya)
      rw [if_pos (Or.inl hmem),
        if_pos (Or.inr (List.mem_cons.mpr (Or.inl hya)))]
      rw [hya]
      have hc : List.count a (a :: L) = List.count a L + 1 := by
        rw [List.count_cons, if_pos (by rw [beq_iff_eq])]
      rw [hc, Option.getD_some]
      congr 1
      omega
    · rw [if_neg hya]
      have hkeys : y ∈ (updateCounter m a).map Prod.fst ↔
          y ∈ m.map Prod.fst := by
        rw [mem_updateCounter_keys]
        constructor
        · rintro (h | h)
          · exact h
          · exact absurd h hya
        · exact Or.inl
      have hc : List.count y (a :: L) = List.count y L := by
        rw [List.count_cons,
          if_neg (by rw [beq_iff_eq]; exact fun e => hya e.symm)]
        omega
      by_cases hcond : y ∈ m.map Prod.fst ∨ y ∈ L
      · have hcond1 : y ∈ (updateCounter m a).map Prod.fst ∨ y ∈ L :=
          hcond.imp (fun h => hkeys.mpr h) id
        have hcond2 : y ∈ m.map Prod.fst ∨ y ∈ a :: L :=
          hcond.imp id (fun h => List.mem_cons.mpr (Or.inr h))
        rw [if_pos hcond1, if_pos hcond2, hc]
      · have hcond1 : ¬ (y ∈ (updateCounter m a).map Prod.fst ∨ y ∈ L) := by
          rintro (h | h)
          exacts [hcond (Or.inl (hkeys.mp h)), hcond (Or.inr h)]
        have hcond2 : ¬ (y ∈ m.map Prod.fst ∨ y ∈ a :: L) := by
          rintro (h | h)
          · exact hcond (Or.inl h)
          · rcases List.mem_cons.mp h with e | h
            · exact hya e
            · exact hcond (Or.inr h)
        rw [if_neg hcond1, if_neg hcond2]

theorem foldl_updateCounter_keys_mem (L : List Nat) (m : List (Nat × Nat))
    (y : Nat) :
    y ∈ (L.foldl updateCounter m).map Prod.fst ↔
      y ∈ m.map Prod.fst ∨ y ∈ L := by
  induction L generalizing m with
  | nil => simp
  | cons a L ih =>
    rw [List.foldl_cons, ih, mem_updateCounter_keys]
    constructor
    · rintro ((h | h) | h)
      · exact Or.inl h
      · exact Or.inr (by simp [h])
      · exact Or.inr (by simp [h])
    · rintro (h | h)
      · exact Or.inl (Or.inl h)
      · rcases List.mem_cons.mp h with rfl | h
        · exact Or.inl (Or.inr rfl)
        · exact Or.inr h

theorem foldl_updateCounter_keys_nodup (L : List Nat)
    {m : List (Nat × Nat)} (h : (m.map Prod.fst).Nodup) :
    ((L.foldl updateCounter m).map Prod.fst).Nodup := by
  induction L generalizing m with
  | nil => exact h
  | cons a L ih => exact ih (updateCounter_keys_nodup a h)

theorem fill_zeros_lookup (R : List Nat) (m : List (Nat × Nat)) (y : Nat) :
    (R.foldl (fun m item_id =>
        if m.any (fun p => p.1 == item_id) then m else m ++ [(item_id, 0)])
      m).lookup y =
      if y ∈ m.map Prod.fst then m.lookup y
      else if y ∈ R then some 0 else none := by
  induction R generalizing m with
  | nil =>
    by_cases h : y ∈ m.map Prod.fst
    · rw [if_pos h]
      rfl
    · rw [if_neg h, if_neg (List.not_mem_nil y)]
      exact (lookup_none_iff m y).mpr h
  | cons i R ih =>
    rw [List.foldl_cons]
    by_cases hp : (m.any (fun p => p.1 == i)) = true
    · rw [if_pos hp, ih]
      have hikeys : i ∈ m.map Prod.fst := (any_key_iff m i).mp hp
      by_cases h : y ∈ m.map Prod.fst
      · rw [if_pos h, if_pos h]
      · rw [if_neg h, if_neg h]
        have : (y ∈ i :: R) ↔ (y ∈ R) := by
          rw [List.mem_cons]
          constructor
          · rintro (e | hr)
            · exact absurd (e ▸ hikeys) h
            · exact hr
          · exact Or.inr
        by_cases hr : y ∈ R
        · rw [if_pos hr, if_pos (this.mpr hr)]
        · rw [if_neg hr, if_neg (fun c => hr (this.mp c))]
    · rw [if_neg hp, ih]
      have hik : i ∉ m.map Prod.fst := fun c => hp ((any_key_iff m i).mpr c)
      have hkeys : ∀ z, z ∈ (m ++ [(i, 0)]).map Prod.fst ↔
          z ∈ m.map Prod.fst ∨ z = i := by
        intro z
        rw [List.map_append]
        simp
      by_cases h : y ∈ m.map Prod.fst
      · rw [if_pos ((hkeys y).mpr (Or.inl h)), if_pos h, lookup_append]
        rcases ho : m.lookup y with _ | v
        · exact absurd ((lookup_none_iff m y).mp ho) (fun c => c h)
        · rfl
      · rw [if_neg h]
        by_cases hyi : y = i
        · rw [if_pos ((hkeys y).mpr (Or.inr hyi)), lookup_append,
            (lookup_none_iff m y).mpr h, hyi, lookup_cons, if_pos rfl]
          simp
        · rw [if_neg (fun c => by
            rcases (hkeys y).mp c with c' | c'
            · exact h c'
            · exact hyi c')]
          have : (y ∈ i :: R) ↔ (y ∈ R) := by
            rw [List.mem_cons]
            constructor
            · rintro (e | hr)
              · exact absurd e hyi
              · exact hr
            · exact Or.inr
          by_cases hr : y ∈ R
          · rw [if_pos hr, if_pos (this.mpr hr)]
          · rw [if_neg hr, if_neg (fun c => hr (this.mp c))]

theorem fill_zeros_keys_mem (R : List Nat) (m : List (Nat × Nat)) (y : Nat) :
    y ∈ ((R.foldl (fun m item_id =>
        if m.any (fun p => p.1 == item_id) then m else m ++ [(item_id, 0)])
      m).map Prod.fst) ↔ y ∈ m.map Prod.fst ∨ y ∈ R := by
  induction R generalizing m with
  | nil => simp
  | cons i R ih =>
    rw [List.foldl_cons]
    by_cases hp : (m.any (fun p => p.1 == i)) = true
    · rw [if_pos hp, ih]
      have hikeys : i ∈ m.map Prod.fst := (any_key_iff m i).mp hp
      constructor
      · rintro (h | h)
        · exact Or.inl h
        · exact Or.inr (List.mem_cons.mpr (Or.inr h))
      · rintro (h | h)
        · exact Or.inl h
        · rcases List.mem_cons.mp h with rfl | h
          · exact Or.inl hikeys
          · exact Or.inr h
    · rw [if_neg hp, ih]
      simp only [List.map_append, List.mem_append, List.map_cons,
        List.map_nil, List.mem_singleton, List.mem_cons]
      tauto

theorem fill_zeros_keys_nodup (R : List Nat) {m : List (Nat × Nat)}
    (h : (m.map Prod.fst).Nodup) :
    ((R.foldl (fun m item_id =>
        if m.any (fun p => p.1 == item_id) then m else m ++ [(item_id, 0)])
      m).map Prod.fst).Nodup := by
  induction R generalizing m with
  | nil => exact h
  | cons i R ih =>
    rw [List.foldl_cons]
    by_cases hp : (m.any (fun p => p.1 == i)) = true
    · rw [if_pos hp]
      exact ih h
    · rw [if_neg hp]
      refine ih ?_
      rw [List.map_append, List.nodup_append]
      refine ⟨h, by simp, ?_⟩
      intro a ha hax
      have : a = i := by simpa using hax
      exact hp ((any_key_iff m i).mpr (this ▸ ha))

theorem foldl_flatMap_eq (l : List α) (g : α → List β) (step : γ → β → γ)
    (m : γ) :
    (l.flatMap g).foldl step m =
      l.foldl (fun acc i => (g i).foldl step acc) m := by
  induction l generalizing m with
  | nil => rfl
  | cons a l ih => rw [List.flatMap_cons, List.foldl_append, List.foldl_cons, ih]

theorem compute_reverse_knn_eq (idx : HNSWIndex) (k : Nat) :
    compute_reverse_knn idx k =
      (List.range idx.count).foldl (fun m item_id =>
          if m.any (fun p => p.1 == item_id) then m else m ++ [(item_id, 0)])
        ((allNeighborIds idx k).foldl updateCounter []) := by
  show (List.range idx.count).foldl (fun m item_id =>
      if m.any (fun p => p.1 == item_id) then m else m ++ [(item_id, 0)])
    ((List.range idx.count).foldl (fun m item_id =>
      (idx.getNeighbors item_id k).foldl (fun m' p => updateCounter m' p.1) m)
      []) = _
  congr 1
  rw [allNeighborIds, foldl_flatMap_eq]
  congr 1
  funext m i
  rw [List.foldl_map]

theorem sum_map_indicator (l : List Nat) (f : Nat → Nat) (p : Nat → Bool)
    (h : ∀ i ∈ l, f i = if p i then 1 else 0) :
    (l.map f).sum = (l.filter p).length := by
  induction l with
  | nil => rfl
  | cons a l ih =>
    rw [List.map_cons, List.sum_cons, List.filter_cons,
      h a (by simp), ih (fun i hi => h i (by simp [hi]))]
    by_cases hp : p a = true
    · rw [if_pos hp, if_pos hp, List.length_cons]
      omega
    · rw [if_neg hp, if_neg hp]
      omega

theorem count_allNeighborIds (idx : HNSWIndex) (k x : Nat)
    (hconf : Conforming idx k) :
    List.count x (allNeighborIds idx k) = reverseKnnSpec idx k x := by
  rw [allNeighborIds, List.count_flatMap, reverseKnnSpec]
  apply sum_map_indicator
  intro i hi
  have hic : i < idx.count := List.mem_range.mp hi
  have hnd : ((idx.getNeighbors i k).map Prod.fst).Nodup :=
    (hconf i hic).2.2.1
  simp only [Function.comp_apply]
  by_cases hm : x ∈ (idx.getNeighbors i k).map Prod.fst
  · rw [List.count_eq_one_of_mem hnd hm, if_pos (by simpa using hm)]
  · rw [List.count_eq_zero_of_not_mem hm, if_neg (by simpa using hm)]

theorem p1_keys_mem (idx : HNSWIndex) (k : Nat) (y : Nat) :
    y ∈ ((allNeighborIds idx k).foldl updateCounter []).map Prod.fst ↔
      y ∈ allNeighborIds idx k := by
  rw [foldl_updateCounter_keys_mem]
  simp

theorem compute_reverse_knn_lookup_spec (idx : HNSWIndex) (k : Nat)
    (hconf : Conforming idx k) :
    ∀ x, x < idx.count →
      (compute_reverse_knn idx k).lookup x =
        some (reverseKnnSpec idx k x) := by
  intro x hx
  rw [compute_reverse_knn_eq, fill_zeros_lookup]
  by_cases hk : x ∈ ((allNeighborIds idx k).foldl updateCounter
      []).map Prod.fst
  · rw [if_pos hk, foldl_updateCounter_lookup,
      if_pos (Or.inr ((p1_keys_mem idx k x).mp hk))]
    rw [count_allNeighborIds idx k x hconf]
    simp [List.lookup]
  · rw [if_neg hk, if_pos (List.mem_range.mpr hx)]
    have hxL : x ∉ allNeighborIds idx k :=
      fun c => hk ((p1_keys_mem idx k x).mpr c)
    have hspec : reverseKnnSpec idx k x = 0 := by
      rw [reverseKnnSpec, List.length_eq_zero, List.filter_eq_nil_iff]
      intro i hi hc
      exact hxL (List.mem_flatMap.mpr ⟨i, hi, by simpa using hc⟩)
    rw [hspec]

theorem compute_reverse_knn_keys_perm (idx : HNSWIndex) (k : Nat)
    (hconf : Conforming idx k) :
    ((compute_reverse_knn idx k).map Prod.fst).Perm
      (List.range idx.count) := by
  have hLrange : ∀ y ∈ allNeighborIds idx k, y < idx.count := by
    intro y hy
    rcases List.mem_flatMap.mp hy with ⟨i, hi, hmem⟩
    have hic : i < idx.count := List.mem_range.mp hi
    rcases List.mem_map.mp hmem with ⟨p, hp, rfl⟩
    exact (hconf i hic).2.1 p hp
  have hp1nodup : (((allNeighborIds idx k).foldl updateCounter
      []).map Prod.fst).Nodup :=
    foldl_updateCounter_keys_nodup _ (by simp)
  have hnodup : ((compute_reverse_knn idx k).map Prod.fst).Nodup := by
    rw [compute_reverse_knn_eq]
    exact fill_zeros_keys_nodup _ hp1nodup
  rw [List.perm_ext_iff_of_nodup hnodup (List.nodup_range _)]
  intro a
  rw [compute_reverse_knn_eq, fill_zeros_keys_mem, List.mem_range]
  constructor
  · rintro (h | h)
    · exact hLrange a ((p1_keys_mem idx k a).mp h)
    · exact h
  · intro h
    exact Or.inr h

theorem compute_reverse_knn_length (idx : HNSWIndex) (k : Nat)
    (hconf : Conforming idx k) :
    (compute_reverse_knn idx k).length = idx.count := by
  have := (compute_reverse_knn_keys_perm idx k hconf).length_eq
  rwa [List.length_map, List.length_range] at this

/-- Claim C7.  On a conforming index, the reverse-kNN mapping has exactly
the item ids `{0, ..., count-1}` as its keys (as a permutation of
`range count`); the value recorded for each id `x` is the number of items
whose k-nearest-neighbor query listed `x`; and an id never listed by any
query is present with the explicit value 0. -/
theorem compute_reverse_knn_keys_and_counts (idx : HNSWIndex) (k : Nat)
    (hconf : Conforming idx k) :
    ((compute_reverse_knn idx k).map Prod.fst).Perm
        (List.range idx.count) ∧
    (∀ x, x < idx.count →
      (compute_reverse_knn idx k).lookup x =
        some (reverseKnnSpec idx k x)) ∧
    (∀ x, x < idx.count →
      (∀ i, i < idx.count → x ∉ (idx.getNeighbors i k).map Prod.fst) →
      (compute_reverse_knn idx k).lookup x = some 0) := by
  refine ⟨compute_reverse_knn_keys_perm idx k hconf,
    compute_reverse_knn_lookup_spec idx k hconf, ?_⟩
  intro x hx hnone
  have hspec : reverseKnnSpec idx k x = 0 := by
    rw [reverseKnnSpec, List.length_eq_zero, List.filter_eq_nil_iff]
    intro i hi hc
    exact hnone i (List.mem_range.mp hi) (by simpa using hc)
  rw [compute_reverse_knn_lookup_spec idx k hconf x hx, hspec]

/-- Witness for C7: on the two-item index, the key list is a permutation of
`[0, 1]`, item 0 is listed by item 1's query (count 1), and both lookups
match the specification count. -/
theorem compute_reverse_knn_keys_and_counts_witness :
    Conforming ex2 10 ∧
    (compute_reverse_knn ex2 10).lookup 0 = some (reverseKnnSpec ex2 10 0) ∧
    (compute_reverse_knn ex2 10).lookup 1 = some (reverseKnnSpec ex2 10 1) := by
  have hconf : Conforming ex2 10 := by with_unfolding_all decide
  exact ⟨hconf,
    (compute_reverse_knn_keys_and_counts ex2 10 hconf).2.1 0 (by decide),
    (compute_reverse_knn_keys_and_counts ex2 10 hconf).2.1 1 (by decide)⟩

theorem rawScores_length (idx : HNSWIndex) (k : Nat) (w : ℚ × ℚ × ℚ) :
    (rawScores idx k w).length = idx.count := by
  simp [rawScores]

theorem analyze_length (idx : HNSWIndex) (k : Nat) (w : ℚ × ℚ × ℚ) :
    (analyze idx k w).length = idx.count := by
  by_cases h : idx.count = 0
  · simp [analyze, h]
  · rw [analyze, if_neg h, assignRanks_length, sortBy_length, rawScores_length]

/-- Claim C1.  For every index with `count() == n`, `analyze()` returns a
list of exactly `n` `AnomalyScore` records whose `rank` fields, read off in
list order, are literally `1, 2, ..., n` (in particular a permutation of
`1..n`); when `n == 0` the result is the empty list.  This holds for every
index, conforming or not. -/
theorem analyze_returns_ranked_permutation (idx : HNSWIndex) (k : Nat)
    (w : ℚ × ℚ × ℚ) :
    (analyze idx k w).length = idx.count ∧
    (analyze idx k w).map (fun s => s.rank) = List.range' 1 idx.count ∧
    (idx.count = 0 → analyze idx k w = []) := by
  refine ⟨analyze_length idx k w, ?_, fun h => by simp [analyze, h]⟩
  by_cases h : idx.count = 0
  · simp [analyze, h]
  · rw [analyze, if_neg h, assignRanks_map_rank, sortBy_length,
      rawScores_length]

/-! ### Finiteness and bounds of the combined isolation scores -/

theorem F.mul_q (a b : ℚ) : F.mul (F.q a) (F.q b) = F.q (a * b) := rfl

theorem F.add_q (a b : ℚ) : F.add (F.q a) (F.q b) = F.q (a + b) := rfl

theorem normalize_length (values : List F) (inv : Bool) :
    (normalize values inv).length = values.length := by
  cases values with
  | nil => rfl
  | cons v vs =>
    rw [normalize]
    by_cases h : (F.beq (vs.foldl F.fmax v) (vs.foldl F.fmin v)) = true
    · rw [if_pos h, List.length_map]
    · rw [if_neg h, List.length_map]

theorem getD_mem_of_lt (l : List α) {i : Nat} (h : i < l.length) (d : α) :
    l.getD i d ∈ l := by
  rw [List.getD_eq_getElem l d h]
  exact List.getElem_mem h

theorem compute_knn_distances_length (idx : HNSWIndex) (k : Nat) :
    (compute_knn_distances idx k).length = idx.count := by
  rw [compute_knn_distances, List.length_map, List.length_range]

theorem compute_lof_length (idx : HNSWIndex) (k : Nat) :
    (compute_lof idx k).length = idx.count := by
  rw [compute_lof]
  by_cases h : idx.count < k + 1
  · rw [if_pos h, List.length_map, List.length_range]
  · rw [if_neg h, List.length_map, List.length_range]

theorem knnEntry_empty (idx : HNSWIndex) (k j : Nat)
    (h : idx.getNeighbors j k = []) : knnEntry idx k j = (F.pinf, []) := by
  rw [knnEntry]
  simp [h]

theorem knnEntry_nonempty (idx : HNSWIndex) (k j : Nat)
    (h : idx.getNeighbors j k ≠ []) :
    knnEntry idx k j =
      (F.q (((idx.getNeighbors j k).map Prod.snd).sum /
        ((idx.getNeighbors j k).length : ℚ)),
       (idx.getNeighbors j k).map Prod.fst) := by
  rw [knnEntry]
  simp [List.isEmpty_iff, h]

theorem compute_isolation_score_getD (knn : List (F × List Nat))
    (lof : List ℚ) (rknn : List (Nat × Nat)) (w : ℚ × ℚ × ℚ) {i : Nat}
    (h : i < knn.length) :
    (compute_isolation_score knn lof rknn w).getD i (F.q 0) =
      F.add (F.add
        (F.mul (F.q w.1)
          ((normalize (knn.map Prod.fst) false).getD i (F.q 0)))
        (F.mul (F.q w.2.1)
          ((normalize (lof.map F.q) false).getD i (F.q 0))))
        (F.mul (F.q w.2.2)
          ((normalize (rknn.map (fun p => F.q (p.2 : ℚ))) true).getD i
            (F.q 0))) := by
  have he : compute_isolation_score knn lof rknn w =
      (List.range knn.length).map (fun item_id =>
        F.add (F.add
          (F.mul (F.q w.1)
            ((normalize (knn.map Prod.fst) false).getD item_id (F.q 0)))
          (F.mul (F.q w.2.1)
            ((normalize (lof.map F.q) false).getD item_id (F.q 0))))
          (F.mul (F.q w.2.2)
            ((normalize (rknn.map (fun p => F.q (p.2 : ℚ))) true).getD item_id
              (F.q 0)))) := rfl
  rw [he, getD_map_range _ h]

/-- On a conforming `NoMixedInf` index, every entry of the combined
isolation-score map decomposes as `w1*r1 + w2*r2 + w3*r3` with each
normalized signal `r` a rational in `[0, 1]`. -/
theorem isolation_entry_decomposed (idx : HNSWIndex) (k : Nat)
    (w : ℚ × ℚ × ℚ) (hconf : Conforming idx k) (hmix : NoMixedInf idx k)
    {i : Nat} (h : i < idx.count) :
    ∃ r1 r2 r3 : ℚ, 0 ≤ r1 ∧ r1 ≤ 1 ∧ 0 ≤ r2 ∧ r2 ≤ 1 ∧ 0 ≤ r3 ∧ r3 ≤ 1 ∧
      (compute_isolation_score (compute_knn_distances idx k)
        (compute_lof idx k) (compute_reverse_knn idx k) w).getD i (F.q 0) =
        F.q (w.1 * r1 + w.2.1 * r2 + w.2.2 * r3) := by
  have hklen : (compute_knn_distances idx k).length = idx.count :=
    compute_knn_distances_length idx k
  rw [compute_isolation_score_getD _ _ _ w (by rw [hklen]; exact h)]
  have hknn_cls : (∀ x ∈ (compute_knn_distances idx k).map Prod.fst,
      ∃ r : ℚ, x = F.q r) ∨
      (∀ x ∈ (compute_knn_distances idx k).map Prod.fst, x = F.pinf) := by
    rcases hmix with hall | hnone
    · left
      intro x hx
      rcases List.mem_map.mp hx with ⟨p, hp, rfl⟩
      rcases List.mem_map.mp hp with ⟨j, hj, rfl⟩
      rw [knnEntry_nonempty idx k j (hall j (List.mem_range.mp hj))]
      exact ⟨_, rfl⟩
    · right
      intro x hx
      rcases List.mem_map.mp hx with ⟨p, hp, rfl⟩
      rcases List.mem_map.mp hp with ⟨j, hj, rfl⟩
      rw [knnEntry_empty idx k j (hnone j (List.mem_range.mp hj))]
  have hlof_cls : ∀ x ∈ (compute_lof idx k).map F.q, ∃ r : ℚ, x = F.q r := by
    intro x hx
    rcases List.mem_map.mp hx with ⟨r, _, rfl⟩
    exact ⟨r, rfl⟩
  have hrknn_cls : ∀ x ∈ (compute_reverse_knn idx k).map
      (fun p => F.q (p.2 : ℚ)), ∃ r : ℚ, x = F.q r := by
    intro x hx
    rcases List.mem_map.mp hx with ⟨p, _, rfl⟩
    exact ⟨_, rfl⟩
  have h1 : (normalize ((compute_knn_distances idx k).map Prod.fst)
      false).getD i (F.q 0) ∈
      normalize ((compute_knn_distances idx k).map Prod.fst) false := by
    apply getD_mem_of_lt
    rw [normalize_length, List.length_map, hklen]
    exact h
  have h2 : (normalize ((compute_lof idx k).map F.q) false).getD i (F.q 0) ∈
      normalize ((compute_lof idx k).map F.q) false := by
    apply getD_mem_of_lt
    rw [normalize_length, List.length_map, compute_lof_length]
    exact h
  have h3 : (normalize ((compute_reverse_knn idx k).map
      (fun p => F.q (p.2 : ℚ))) true).getD i (F.q 0) ∈
      normalize ((compute_reverse_knn idx k).map
        (fun p => F.q (p.2 : ℚ))) true := by
    apply getD_mem_of_lt
    rw [normalize_length, List.length_map,
      compute_reverse_knn_length idx k hconf]
    exact h
  obtain ⟨r1, he1, hr10, hr11⟩ := normalize_bounds _ false hknn_cls _ h1
  obtain ⟨r2, he2, hr20, hr21⟩ := normalize_bounds _ false (Or.inl hlof_cls) _ h2
  obtain ⟨r3, he3, hr30, hr31⟩ := normalize_bounds _ true (Or.inl hrknn_cls) _ h3
  refine ⟨r1, r2, r3, hr10, hr11, hr20, hr21, hr30, hr31, ?_⟩
  rw [he1, he2, he3, F.mul_q, F.mul_q, F.mul_q, F.add_q, F.add_q]

theorem mem_assignRanks {y : AnomalyScore} {st : Nat}
    {l : List AnomalyScore} (h : y ∈ assignRanks st l) :
    ∃ t ∈ l, ∃ r, y = { t with rank := r } := by
  induction l generalizing st with
  | nil => cases h
  | cons s l ih =>
    rcases List.mem_cons.mp h with rfl | h
    · exact ⟨s, by simp, st, rfl⟩
    · obtain ⟨t, ht, r, rfl⟩ := ih h
      exact ⟨t, by simp [ht], r, rfl⟩

/-- Every record of `analyze`'s output on a conforming `NoMixedInf` index
carries an isolation score of the form `w1*r1 + w2*r2 + w3*r3` with each
`r` in `[0, 1]`. -/
theorem analyze_isolation_decomposed (idx : HNSWIndex) (k : Nat)
    (w : ℚ × ℚ × ℚ) (hconf : Conforming idx k) (hmix : NoMixedInf idx k) :
    ∀ s ∈ analyze idx k w,
      ∃ r1 r2 r3 : ℚ, 0 ≤ r1 ∧ r1 ≤ 1 ∧ 0 ≤ r2 ∧ r2 ≤ 1 ∧ 0 ≤ r3 ∧ r3 ≤ 1 ∧
        s.isolation_score = F.q (w.1 * r1 + w.2.1 * r2 + w.2.2 * r3) := by
  intro s hs
  rw [analyze] at hs
  by_cases hc : idx.count = 0
  · rw [if_pos hc] at hs
    cases hs
  · rw [if_neg hc] at hs
    obtain ⟨t, ht, r, rfl⟩ := mem_assignRanks hs
    have ht' : t ∈ rawScores idx k w := mem_sortBy.mp ht
    rcases List.mem_map.mp ht' with ⟨j, hj, rfl⟩
    have hjc : j < idx.count := List.mem_range.mp hj
    obtain ⟨r1, r2, r3, p1, p2, p3, p4, p5, p6, heq⟩ :=
      isolation_entry_decomposed idx k w hconf hmix hjc
    exact ⟨r1, r2, r3, p1, p2, p3, p4, p5, p6, heq⟩

/-- Claim C5, amended.  On a conforming index in which either every item
has at least one neighbor or no item has any (`NoMixedInf` — excluding the
mixed case, where the item with no neighbors receives the NaN score
`inf/inf` and leaves `[0,1]`), every isolation score produced by `analyze`
with the default weights `(0.4, 0.4, 0.2)` is a rational in `[0, 1]`. -/
theorem analyze_isolation_in_unit_interval (idx : HNSWIndex) (k : Nat)
    (hconf : Conforming idx k) (hmix : NoMixedInf idx k) :
    ∀ s ∈ analyze idx k defaultWeights,
      ∃ r : ℚ, s.isolation_score = F.q r ∧ 0 ≤ r ∧ r ≤ 1 := by
  intro s hs
  obtain ⟨r1, r2, r3, p1, p2, p3, p4, p5, p6, heq⟩ :=
    analyze_isolation_decomposed idx k defaultWeights hconf hmix s hs
  have hw : defaultWeights = (2/5, 2/5, 1/5) := rfl
  rw [hw] at heq
  refine ⟨2/5 * r1 + 2/5 * r2 + 1/5 * r3, heq, ?_, ?_⟩
  · linarith
  · linarith

/-- Witness for the amended C5: the two-item index is conforming, has no
mixed infinities, and all its isolation scores land in `[0, 1]`. -/
theorem analyze_isolation_in_unit_interval_witness :
    Conforming ex2 10 ∧ NoMixedInf ex2 10 ∧
    (∀ s ∈ analyze ex2 10 defaultWeights,
      ∃ r : ℚ, s.isolation_score = F.q r ∧ 0 ≤ r ∧ r ≤ 1) := by
  have hconf : Conforming ex2 10 := by with_unfolding_all decide
  have hmix : NoMixedInf ex2 10 := by with_unfolding_all decide
  exact ⟨hconf, hmix,
    analyze_isolation_in_unit_interval ex2 10 hconf hmix⟩

/-- Counterexample to C5 as stated: `mixedEx` is a conforming index (item 0
has one neighbor at distance 0.4, item 1 has none, as the contract of spec
section 6 allows), yet with the default weights one of the two isolation
scores `analyze` produces is NaN — `(inf - 0.4)/(inf - 0.4) = inf/inf` —
which is not a rational in `[0, 1]` (nor in it under IEEE comparisons). -/
theorem analyze_isolation_unit_interval_counterexample :
    Conforming mixedEx 10 ∧
    ¬ (∀ s ∈ analyze mixedEx 10 defaultWeights,
        ∃ r : ℚ, s.isolation_score = F.q r ∧ 0 ≤ r ∧ r ≤ 1) := by
  refine ⟨by with_unfolding_all decide, ?_⟩
  intro hall
  have hmap : (analyze mixedEx 10 defaultWeights).map
      (fun s => s.isolation_score) = [F.nan, F.q (1/5)] := by
    with_unfolding_all decide
  have hmem : F.nan ∈ (analyze mixedEx 10 defaultWeights).map
      (fun s => s.isolation_score) := by
    rw [hmap]
    simp
  rcases List.mem_map.mp hmem with ⟨s, hs, hiso⟩
  rcases hall s hs with ⟨r, hr, _, _⟩
  rw [hr] at hiso
  cases hiso

/-! ### Sortedness and stability of the ranked output -/

theorem F.ble_q_iff (a b : ℚ) : F.ble (F.q a) (F.q b) = true ↔ a ≤ b := by
  simp [F.ble]

theorem scoreLe_def (a b : AnomalyScore) :
    scoreLe a b = F.ble b.isolation_score a.isolation_score := rfl

theorem pairwise_assignRanks (S : AnomalyScore → AnomalyScore → Prop)
    (hS : ∀ a b r r', S a b → S { a with rank := r } { b with rank := r' })
    {l : List AnomalyScore} (st : Nat) (h : l.Pairwise S) :
    (assignRanks st l).Pairwise S := by
  induction l generalizing st with
  | nil => exact List.Pairwise.nil
  | cons s l ih =>
    rcases List.pairwise_cons.mp h with ⟨hhead, htail⟩
    refine List.pairwise_cons.mpr ⟨?_, ih (st + 1) htail⟩
    intro y hy
    obtain ⟨t, ht, r, rfl⟩ := mem_assignRanks hy
    exact hS s t st r (hhead t ht)

theorem rawScores_pairwise_id (idx : HNSWIndex) (k : Nat) (w : ℚ × ℚ × ℚ) :
    (rawScores idx k w).Pairwise (fun a b => a.item_id < b.item_id) := by
  rw [rawScores, List.pairwise_map]
  have : ∀ i j : Nat, i < j →
      (scoreEntry idx k w i).item_id < (scoreEntry idx k w j).item_id :=
    fun i j h => h
  exact (List.pairwise_lt_range idx.count).imp (fun h => this _ _ h)

/-- Claim C2, amended.  On a conforming index in which either every item
has at least one neighbor or no item has any (`NoMixedInf` — excluding the
mixed case, where a NaN score makes the comparisons non-total), the list
returned by `analyze` is ordered with non-increasing isolation score, and
any two records with equal isolation scores appear in ascending `item_id`
order. -/
theorem analyze_sorted_and_stable (idx : HNSWIndex) (k : Nat)
    (w : ℚ × ℚ × ℚ) (hconf : Conforming idx k) (hmix : NoMixedInf idx k) :
    (analyze idx k w).Pairwise (fun a b =>
      F.ble b.isolation_score a.isolation_score = true ∧
      (b.isolation_score = a.isolation_score →
        a.item_id < b.item_id)) := by
  rw [analyze]
  by_cases hc : idx.count = 0
  · rw [if_pos hc]
    exact List.Pairwise.nil
  · rw [if_neg hc]
    have hqiso : ∀ s ∈ rawScores idx k w,
        ∃ r : ℚ, s.isolation_score = F.q r := by
      intro s hs
      rcases List.mem_map.mp hs with ⟨j, hj, rfl⟩
      obtain ⟨r1, r2, r3, _, _, _, _, _, _, heq⟩ :=
        isolation_entry_decomposed idx k w hconf hmix
          (List.mem_range.mp hj)
      exact ⟨_, heq⟩
    apply pairwise_assignRanks
    · intro a b r r' hab
      exact hab
    · refine (sortBy_pairwise scoreLe _ (rawScores idx k w) ?_ ?_ ?_).2
      · intro x hx y hy z hz hxy hyz
        obtain ⟨rx, hrx⟩ := hqiso x hx
        obtain ⟨ry, hry⟩ := hqiso y hy
        obtain ⟨rz, hrz⟩ := hqiso z hz
        rw [scoreLe, hrx, hry, F.ble_q_iff] at hxy
        rw [scoreLe, hry, hrz, F.ble_q_iff] at hyz
        rw [scoreLe, hrx, hrz, F.ble_q_iff]
        exact le_trans hyz hxy
      · intro x hx y hy
        obtain ⟨rx, hrx⟩ := hqiso x hx
        obtain ⟨ry, hry⟩ := hqiso y hy
        rw [scoreLe, scoreLe, hrx, hry, F.ble_q_iff, F.ble_q_iff]
        exact le_total ry rx
      · refine (rawScores_pairwise_id idx k w).imp_of_mem ?_
        intro x y hx hy hid
        obtain ⟨rx, hrx⟩ := hqiso x hx
        obtain ⟨ry, hry⟩ := hqiso y hy
        constructor
        · intro hle
          exact ⟨hle, fun _ => hid⟩
        · intro hle
          rw [scoreLe_def, hrx, hry] at hle
          have hnot : ¬ ry ≤ rx := by
            intro hc
            rw [(F.ble_q_iff ry rx).mpr hc] at hle
            cases hle
          refine ⟨?_, ?_⟩
          · show F.ble x.isolation_score y.isolation_score = true
            rw [hrx, hry, F.ble_q_iff]
            exact le_of_not_le hnot
          · intro he
            exfalso
            rw [hrx, hry] at he
            have heq : rx = ry := by cases he; rfl
            exact hnot (le_of_eq heq.symm)

/-- Witness for the amended C2: `analyze` on the two-item conforming index
is pairwise non-increasing with the stable tie-break. -/
theorem analyze_sorted_and_stable_witness :
    Conforming ex2 10 ∧ NoMixedInf ex2 10 ∧
    (analyze ex2 10 defaultWeights).Pairwise (fun a b =>
      F.ble b.isolation_score a.isolation_score = true ∧
      (b.isolation_score = a.isolation_score →
        a.item_id < b.item_id)) := by
  have hconf : Conforming ex2 10 := by with_unfolding_all decide
  have hmix : NoMixedInf ex2 10 := by with_unfolding_all decide
  exact ⟨hconf, hmix,
    analyze_sorted_and_stable ex2 10 defaultWeights hconf hmix⟩

/-- Counterexample to C2 as stated: on the conforming index `mixedEx` the
isolation scores are `[NaN, 0.2]` in output order, and a list containing a
NaN score cannot be non-increasing under IEEE comparisons (`NaN ≥ x` and
`x ≥ NaN` are both false), so the ordering clause fails. -/
theorem analyze_sorted_counterexample :
    Conforming mixedEx 10 ∧
    ¬ (analyze mixedEx 10 defaultWeights).Pairwise (fun a b =>
        F.ble b.isolation_score a.isolation_score = true) := by
  constructor
  · with_unfolding_all decide
  · with_unfolding_all decide

/-! ### Top-N retrieval -/

/-- Claim C8, amended.  `get_top_anomalys(n)` returns the Python slice
`analyze()[:n]`: for `n ≥ 0` the length-`min(n, count)` prefix of the
ranked list (the full list once `n ≥ count`, the empty list for `n = 0`);
for `n < 0` Python slice semantics keep the prefix with the last
`min(-n, count)` elements dropped — NOT the empty list. -/
theorem get_top_anomalys_slice (idx : HNSWIndex) (k : Nat) (n : Int) :
    (0 ≤ n → get_top_anomalys idx k n =
      (analyze idx k defaultWeights).take n.toNat) ∧
    (0 ≤ n → (get_top_anomalys idx k n).length =
      min n.toNat idx.count) ∧
    ((idx.count : Int) ≤ n → get_top_anomalys idx k n =
      analyze idx k defaultWeights) ∧
    (n = 0 → get_top_anomalys idx k n = []) ∧
    (n < 0 → get_top_anomalys idx k n =
      (analyze idx k defaultWeights).take (idx.count - (-n).toNat)) := by
  refine ⟨?_, ?_, ?_, ?_, ?_⟩
  · intro h
    rw [get_top_anomalys, pySlice, if_pos h]
  · intro h
    rw [get_top_anomalys, pySlice, if_pos h, List.length_take,
      analyze_length]
  · intro h
    have h0 : 0 ≤ n := le_trans (Int.ofNat_nonneg idx.count) h
    rw [get_top_anomalys, pySlice, if_pos h0]
    apply List.take_of_length_le
    rw [analyze_length]
    omega
  · intro h
    rw [get_top_anomalys, pySlice, h, if_pos (le_refl 0)]
    rfl
  · intro h
    rw [get_top_anomalys, pySlice, if_neg (by omega), analyze_length]

/-- Witness for the amended C8 at concrete inputs: `n = 5` on the two-item
index takes the 5-prefix (the whole list), and `n = 3` has length
`min(3, 2) = 2`. -/
theorem get_top_anomalys_slice_witness :
    get_top_anomalys ex2 10 5 =
      (analyze ex2 10 defaultWeights).take (5 : Int).toNat ∧
    (get_top_anomalys ex2 10 3).length = min (3 : Int).toNat ex2.count := by
  exact ⟨(get_top_anomalys_slice ex2 10 5).1 (by decide),
    (get_top_anomalys_slice ex2 10 3).2.1 (by decide)⟩

/-- Counterexample to C8 as stated: the claim says `n <= 0` returns an
empty list, but on the two-item conforming index `get_top_anomalys(-1)`
is `analyze()[:-1]`, which drops only the last element and returns one
record. -/
theorem get_top_anomalys_negative_counterexample :
    Conforming ex2 10 ∧ (-1 : Int) ≤ 0 ∧
    get_top_anomalys ex2 10 (-1) ≠ [] ∧
    (get_top_anomalys ex2 10 (-1)).length = 1 := by
  refine ⟨by with_unfolding_all decide, by decide, ?_, ?_⟩
  · with_unfolding_all decide
  · with_unfolding_all decide

/-! ### The explanation rules -/

/-- Claim C9.  `explain_anomaly` accumulates the threshold-rule clauses in
the fixed order kNN-distance, LOF, reverse-kNN; when no rule fires it emits
exactly the generic fallback reason, otherwise it joins the triggered
clauses with the literal separator; and on the claim's concrete scenario
(`knn_distance = 0.6`, `lof_score = 1.6`, `reverse_knn_count = 0`) it
yields the three clauses in that fixed order. -/
theorem explain_anomaly_rule_order :
    (∀ s : AnomalyScore,
      explain_anomaly s =
        (if (knnReasonClauses s ++ lofReasonClauses s ++
            rknnReasonClauses s).isEmpty
         then "Slightly elevated anomaly metrics"
         else String.intercalate " | "
           (knnReasonClauses s ++ lofReasonClauses s ++
            rknnReasonClauses s))) ∧
    explain_anomaly scenarioScore =
      "High distance to neighbors (0.600) - isolated in embedding space" ++
      " | " ++
      "High LOF score (1.60) - in a sparse region compared to neighbors" ++
      " | " ++
      "Zero reverse neighbors - nothing considers this code similar" := by
  constructor
  · intro s
    rw [explain_anomaly, knnReasonClauses, lofReasonClauses,
      rknnReasonClauses]
    by_cases hd1 : F.blt (F.q (2⁻¹ : ℚ)) s.knn_distance = true <;>
      by_cases hd2 : F.blt (F.q (3/10)) s.knn_distance = true <;>
      by_cases hl1 : (3/2 : ℚ) < s.lof_score <;>
      by_cases hl2 : (6/5 : ℚ) < s.lof_score <;>
      by_cases hr1 : s.reverse_knn_count = 0 <;>
      by_cases hr2 : s.reverse_knn_count < 3 <;>
      simp [hd1, hd2, hl1, hl2, hr1, hr2,
        show ∀ x : String, String.intercalate " | " [x] = x from fun _ => rfl]
  · set_option maxRecDepth 10000 in with_unfolding_all decide

/-- Claim C10.  The explanation depends only on the three fields
`knn_distance`, `lof_score` and `reverse_knn_count`: two records agreeing
on them receive the identical string, whatever their `item_id`,
`isolation_score`, `neighbors` and `rank`. -/
theorem explain_anomaly_noninterference (s t : AnomalyScore)
    (h1 : s.knn_distance = t.knn_distance)
    (h2 : s.lof_score = t.lof_score)
    (h3 : s.reverse_knn_count = t.reverse_knn_count) :
    explain_anomaly s = explain_anomaly t := by
  cases s
  cases t
  simp only at h1 h2 h3
  subst h1
  subst h2
  subst h3
  rfl

/-- Witness for C10: two records agreeing on the three explanation inputs
but differing in `item_id`, `isolation_score`, `neighbors` and `rank`
receive the identical explanation. -/
theorem explain_anomaly_noninterference_witness :
    quietScoreA.item_id ≠ quietScoreB.item_id ∧
    explain_anomaly quietScoreA = explain_anomaly quietScoreB :=
  ⟨by decide, explain_anomaly_noninterference quietScoreA quietScoreB
    rfl rfl rfl⟩

end AnomalyDetection
